import Mathlib

/-!
Verification of the email-extractor core (`src/app.py`).

The development shallowly embeds the program's core logic:

* `find_emails` / `findAllAux` / `matchAt` — the scan of a cell's text with
  the pattern `[a-zA-Z0-9._%+\-]+@[a-zA-Z0-9.\-]+\.[a-zA-Z]{2,}` exactly as
  Python's `re.findall` performs it (left-to-right, non-overlapping,
  greedy with backtracking on the domain part);
* `dedup` — the `seen`-list de-duplication loop of `process_excel`;
* `resolveColumn` — the column-resolution logic of `process_excel`,
  including the insertion-ordered, last-value-wins `cols_lower` dictionary;
* `process` — the annotation pipeline producing the output dataset
  (pandas `df["Emails"] = ...` replaces an existing column in place and
  appends a new one otherwise);
* `requestedColumn` — the route's defaulting of a blank column name to
  `"Description"`.

Spec-side definitions (`PatMatch`, `ScanRel`, `specResolveHints`) are stated
from the specification's words and compared against the embedded code.
-/

namespace Extractor

/-! ### Character classes of the email pattern -/

/-- Characters allowed in the local part: `[a-zA-Z0-9._%+\-]`. -/
def classA (c : Char) : Bool :=
  c.isAlpha || c.isDigit || c == '.' || c == '_' || c == '%' || c == '+' || c == '-'

/-- Characters allowed in the domain part before the final dot: `[a-zA-Z0-9.\-]`. -/
def classB (c : Char) : Bool :=
  c.isAlpha || c.isDigit || c == '.' || c == '-'

/-! ### The matcher, embedding `re.findall(EMAIL_REGEX, text)`

At a given start position the engine takes the maximal run of `classA`
characters (backtracking cannot help: the character after a shorter run is
still in `classA`, never `'@'`), requires `'@'`, and then resolves
`[a-zA-Z0-9.\-]+\.[a-zA-Z]{2,}` greedily: the maximal `classB` run is `dom`,
and split points for the literal dot are tried from right to left, with the
TLD the maximal alphabetic run after the dot (at least two letters). -/

/-- Try split points `p+1, p, ..., 1` inside `dom`: the domain head consumes
`j` characters, `dom[j]` must be `'.'`, and at least two letters must follow.
Returns `(head, tld, leftover)` for the greatest feasible `j`. -/
def trySplitAux (dom : List Char) : Nat → Option (List Char × List Char × List Char)
  | 0 => none
  | p + 1 =>
    if dom.get? (p + 1) = some '.' then
      let tld := (dom.drop (p + 2)).takeWhile Char.isAlpha
      if 2 ≤ tld.length then
        some (dom.take (p + 1), tld, (dom.drop (p + 2)).dropWhile Char.isAlpha)
      else trySplitAux dom p
    else trySplitAux dom p

/-- Attempt a pattern match at the head of `s`; on success return the matched
characters and the rest of the input. -/
def matchAt (s : List Char) : Option (List Char × List Char) :=
  let loc := s.takeWhile classA
  if loc.isEmpty then none
  else
    match s.dropWhile classA with
    | [] => none
    | a :: rest2 =>
      if a = '@' then
        let dom := rest2.takeWhile classB
        match trySplitAux dom (dom.length - 1) with
        | some (pre, tld, leftover) =>
          some (loc ++ '@' :: (pre ++ '.' :: tld), leftover ++ rest2.dropWhile classB)
        | none => none
      else none

/-- Left-to-right non-overlapping scan: at each position try `matchAt`; on
success emit the match and continue after it, otherwise advance one
character. The fuel (initialised to the input length) only serves
termination: every successful match consumes at least one character. -/
def findAllAux : Nat → List Char → List (List Char)
  | 0, _ => []
  | _, [] => []
  | fuel + 1, c :: cs =>
    match matchAt (c :: cs) with
    | some (m, rest) => m :: findAllAux fuel rest
    | none => findAllAux fuel cs

/-- All matches of the email pattern in a text, as `re.findall` returns them. -/
def findEmailsText (t : String) : List String :=
  (findAllAux t.data.length t.data).map String.mk

/-- `find_emails` of `src/app.py`: a missing (`NaN`) cell yields no matches,
otherwise the text is scanned with the email pattern. -/
def find_emails (cell : Option String) : List String :=
  match cell with
  | none => []
  | some t => findEmailsText t

/-! ### De-duplication and the "Emails" cell value -/

/-- The `seen`-list loop of `process_excel`: keep the first occurrence of
each match, preserving order (exact string equality). -/
def dedup (xs : List String) : List String :=
  xs.foldl (fun seen e => if e ∈ seen then seen else seen ++ [e]) []

/-- The value written into a row's "Emails" cell: the newline-join of the
de-duplicated matches, the empty string when there are none. -/
def emailsCellValue (cell : Option String) : String :=
  let emails := find_emails cell
  if emails.isEmpty then "" else String.intercalate "\n" (dedup emails)

/-! ### Column resolution -/

/-- ASCII lowering of a string, as Python's `str.lower` acts on the ASCII
range (`'A'`–`'Z'` map to `'a'`–`'z'`, everything else unchanged); defined
over the character list so that it evaluates by kernel reduction. -/
def lowerStr (s : String) : String :=
  String.mk (s.data.map Char.toLower)

/-- Stripping of leading and trailing whitespace, as Python's `str.strip()`
acts on ASCII whitespace. -/
def trimStr (s : String) : String :=
  String.mk (((s.data.dropWhile Char.isWhitespace).reverse.dropWhile Char.isWhitespace).reverse)

/-- Substring containment on character lists (Python's `needle in hay`). -/
def containsSub (needle hay : List Char) : Bool :=
  (List.range (hay.length + 1)).any (fun i => needle.isPrefixOf (hay.drop i))

/-- A lowered column name contains one of the hint substrings checked by
`process_excel`'s guess loop. -/
def hintHit (k : String) : Bool :=
  containsSub "organisation".data k.data || containsSub "info".data k.data ||
    containsSub "description".data k.data

/-- Insertion into a Python dict modelled as an association list: an existing
key keeps its position and gets the new value, a new key is appended. -/
def dictInsert (m : List (String × String)) (k v : String) : List (String × String) :=
  if m.any (fun p => p.1 == k) then
    m.map (fun p => if p.1 == k then (k, v) else p)
  else m ++ [(k, v)]

/-- The `cols_lower` dictionary: `{c.lower(): c for c in df.columns}`. -/
def colsLower (cols : List String) : List (String × String) :=
  cols.foldl (fun m c => dictInsert m (lowerStr c) c) []

/-- Dictionary lookup. -/
def lookupD (m : List (String × String)) (k : String) : Option String :=
  (m.find? (fun p => p.1 == k)).map (·.2)

/-- Column resolution of `process_excel` (lines 24–39): case-insensitive
exact match first; otherwise the first dictionary entry whose key contains a
hint substring; otherwise the first column (`none` models the `IndexError`
raised by `df.columns[0]` on an empty column list). -/
def resolveColumn (cols : List String) (req : String) : Option String :=
  match lookupD (colsLower cols) (lowerStr req) with
  | some v => some v
  | none =>
    match ((colsLower cols).find? (fun p => hintHit p.1)).map (fun p => p.2) with
    | some g => some g
    | none => cols.head?

/-! ### The tabular dataset and the annotation pipeline -/

/-- A loaded spreadsheet: named columns and rows of cells aligned by
position; a `none` cell is pandas `NaN`. -/
structure Dataset where
  cols : List String
  rows : List (List (Option String))
deriving DecidableEq, Repr

/-- The cell of row `r` in column `c` (`row.get(c, "")` of the code: the
default `""` is only reached when the column does not exist). -/
def cellAt (cols : List String) (r : List (Option String)) (c : String) : Option String :=
  match cols.findIdx? (fun x => x == c) with
  | some i => (r.get? i).getD none
  | none => some ""

/-- The cell of the dataset at column `c`, row index `i`. -/
def getCell (d : Dataset) (c : String) (i : Nat) : Option String :=
  match d.rows.get? i with
  | some r => cellAt d.cols r c
  | none => none

/-- The annotation pipeline of `process_excel` on the loaded dataset:
resolve the column, build the per-row "Emails" value and assign the column
(pandas replaces an existing `"Emails"` column in place and appends a new
one after all original columns otherwise). `none` models the error raised
when resolution fails on a dataset with no columns. -/
def process (d : Dataset) (req : String) : Option Dataset :=
  match resolveColumn d.cols req with
  | none => none
  | some col =>
    let value := fun (r : List (Option String)) => emailsCellValue (cellAt d.cols r col)
    match d.cols.findIdx? (fun x => x == "Emails") with
    | some i => some ⟨d.cols, d.rows.map (fun r => r.set i (some (value r)))⟩
    | none => some ⟨d.cols ++ ["Emails"], d.rows.map (fun r => r ++ [some (value r)])⟩

/-- The route's default for the requested column name (`index`, lines
94–102): the form value is stripped and an empty result falls back to
`"Description"`. -/
def requestedColumn (formInput : String) : String :=
  let stripped := trimStr formInput
  if stripped = "" then "Description" else stripped

/-! ### Specification-side view of the email pattern

`PatMatch m` states, following the specification's words, that `m` is one
full match of the pattern: one or more local-part characters, `'@'`, one or
more domain characters, `'.'`, two or more letters. `ScanRel s ms` states
that `ms` lists non-overlapping pattern matches of `s` from left to right,
skipping only positions where no match starts. -/

/-- The string `m` matches the email pattern in full. -/
def PatMatch (m : List Char) : Prop :=
  ∃ l d t : List Char,
    m = l ++ '@' :: (d ++ '.' :: t) ∧
    l ≠ [] ∧ (∀ c ∈ l, classA c) ∧
    d ≠ [] ∧ (∀ c ∈ d, classB c) ∧
    2 ≤ t.length ∧ (∀ c ∈ t, c.isAlpha)

/-- A match of the email pattern begins at the head of `s`. -/
def startsMatch (s : List Char) : Prop :=
  ∃ m r, s = m ++ r ∧ PatMatch m

/-- The scan relation: collect non-overlapping pattern matches left to
right, never skipping a position where a match starts. -/
inductive ScanRel : List Char → List (List Char) → Prop
  | nil : ScanRel [] []
  | skip (c : Char) (s : List Char) (ms : List (List Char)) :
      ¬ startsMatch (c :: s) → ScanRel s ms → ScanRel (c :: s) ms
  | found (m r : List Char) (ms : List (List Char)) :
      PatMatch m → ScanRel r ms → ScanRel (m ++ r) (m :: ms)

/-- The category-then-column hint scan described by the specification:
all columns are checked for `"organisation"` first, then all for
`"info"`, then all for `"description"`. -/
def specResolveHints (cols : List String) : Option String :=
  match cols.find? (fun c => containsSub "organisation".data (lowerStr c).data) with
  | some c => some c
  | none =>
    match cols.find? (fun c => containsSub "info".data (lowerStr c).data) with
    | some c => some c
    | none => cols.find? (fun c => containsSub "description".data (lowerStr c).data)

/-! ### Lemmas about the matcher -/

theorem alpha_classB {c : Char} (h : c.isAlpha) : classB c := by
  simp [classB, h]

theorem trySplitAux_sound {dom : List Char} :
    ∀ {n : Nat} {pre tld leftover : List Char},
    trySplitAux dom n = some (pre, tld, leftover) →
    dom = pre ++ '.' :: (tld ++ leftover) ∧ pre ≠ [] ∧ 2 ≤ tld.length ∧
      (∀ c ∈ tld, c.isAlpha) := by
  intro n
  induction n with
  | zero => intro pre tld leftover h; simp [trySplitAux] at h
  | succ p ih =>
    intro pre tld leftover h
    rw [trySplitAux] at h
    by_cases hdot : dom.get? (p + 1) = some '.'
    · rw [if_pos hdot] at h
      by_cases hlen : 2 ≤ ((dom.drop (p + 2)).takeWhile Char.isAlpha).length
      · rw [if_pos hlen] at h
        injection h with h
        obtain ⟨hpre, htld, hleft⟩ : pre = dom.take (p + 1) ∧
            tld = (dom.drop (p + 2)).takeWhile Char.isAlpha ∧
            leftover = (dom.drop (p + 2)).dropWhile Char.isAlpha := by
          have h1 := congrArg Prod.fst h
          have h2 := congrArg (fun q => q.2.1) h
          have h3 := congrArg (fun q => q.2.2) h
          exact ⟨h1.symm, h2.symm, h3.symm⟩
        have hplt : p + 1 < dom.length := by
          by_contra hge
          rw [List.get?_eq_none.2 (Nat.le_of_not_lt hge)] at hdot
          exact Option.noConfusion hdot
        have hget : dom[p + 1] = '.' := by
          have := List.get?_eq_some.1 hdot
          obtain ⟨hh, hv⟩ := this
          simpa [List.get_eq_getElem] using hv
        refine ⟨?_, ?_, ?_, ?_⟩
        · have hdrop : dom.drop (p + 1) = '.' :: dom.drop (p + 2) := by
            rw [List.drop_eq_getElem_cons hplt, hget]
          calc dom = dom.take (p + 1) ++ dom.drop (p + 1) :=
                (List.take_append_drop _ _).symm
            _ = dom.take (p + 1) ++ ('.' :: dom.drop (p + 2)) := by rw [hdrop]
            _ = pre ++ '.' :: (tld ++ leftover) := by
                rw [hpre, htld, hleft, List.takeWhile_append_dropWhile]
        · rw [hpre]
          intro hnil
          have := congrArg List.length hnil
          simp [List.length_take, Nat.min_eq_left (Nat.le_of_lt hplt)] at this
        · rw [htld]; exact hlen
        · rw [htld]; intro c hc; exact List.mem_takeWhile_imp hc
      · rw [if_neg hlen] at h
        exact ih h
    · rw [if_neg hdot] at h
      exact ih h

theorem trySplitAux_none {dom : List Char} :
    ∀ {n : Nat}, trySplitAux dom n = none →
    ∀ j, 1 ≤ j → j ≤ n →
      ¬(dom.get? j = some '.' ∧
        2 ≤ ((dom.drop (j + 1)).takeWhile Char.isAlpha).length) := by
  intro n
  induction n with
  | zero => intro _ j h1 h0; omega
  | succ p ih =>
    intro h j h1 hle
    rw [trySplitAux] at h
    by_cases hdot : dom.get? (p + 1) = some '.'
    · rw [if_pos hdot] at h
      by_cases hlen : 2 ≤ ((dom.drop (p + 2)).takeWhile Char.isAlpha).length
      · rw [if_pos hlen] at h; exact Option.noConfusion h
      · rw [if_neg hlen] at h
        rcases Nat.lt_or_ge j (p + 1) with hj | hj
        · exact ih h j h1 (by omega)
        · have hj' : j = p + 1 := by omega
          subst hj'
          rintro ⟨-, hc2⟩
          exact hlen hc2
    · rw [if_neg hdot] at h
      rcases Nat.lt_or_ge j (p + 1) with hj | hj
      · exact ih h j h1 (by omega)
      · have hj' : j = p + 1 := by omega
        subst hj'
        rintro ⟨hc1, -⟩
        exact hdot hc1

theorem classA_at : classA '@' = false := by decide

theorem classB_dot : classB '.' = true := by decide

theorem PatMatch_ne_nil {m : List Char} (h : PatMatch m) : m ≠ [] := by
  obtain ⟨l, d, t, rfl, -, -, -, -, -, -⟩ := h
  simp

theorem matchAt_sound {s m r : List Char} (h : matchAt s = some (m, r)) :
    s = m ++ r ∧ PatMatch m := by
  unfold matchAt at h
  by_cases hemp : (s.takeWhile classA).isEmpty
  · rw [if_pos hemp] at h
    exact Option.noConfusion h
  · rw [if_neg hemp] at h
    cases hdw : s.dropWhile classA with
    | nil => rw [hdw] at h; exact Option.noConfusion h
    | cons a rest2 =>
      rw [hdw] at h
      dsimp only at h
      by_cases ha : a = '@'
      · rw [if_pos ha] at h
        subst ha
        cases htr : trySplitAux (rest2.takeWhile classB)
            ((rest2.takeWhile classB).length - 1) with
        | none => rw [htr] at h; exact Option.noConfusion h
        | some x =>
          obtain ⟨pre, tld, leftover⟩ := x
          rw [htr] at h
          obtain ⟨hdom, hpre, htld2, htldA⟩ := trySplitAux_sound htr
          injection h with h
          have hm : m = s.takeWhile classA ++ '@' :: (pre ++ '.' :: tld) :=
            (congrArg Prod.fst h).symm
          have hr : r = leftover ++ rest2.dropWhile classB :=
            (congrArg Prod.snd h).symm
          constructor
          · calc s = s.takeWhile classA ++ s.dropWhile classA :=
                  (List.takeWhile_append_dropWhile _ _).symm
              _ = s.takeWhile classA ++ '@' :: rest2 := by rw [hdw]
              _ = s.takeWhile classA ++ '@' ::
                    (rest2.takeWhile classB ++ rest2.dropWhile classB) := by
                  rw [List.takeWhile_append_dropWhile]
              _ = s.takeWhile classA ++ '@' ::
                    ((pre ++ '.' :: (tld ++ leftover)) ++ rest2.dropWhile classB) := by
                  rw [← hdom]
              _ = m ++ r := by rw [hm, hr]; simp
          · refine ⟨s.takeWhile classA, pre, tld, hm, ?_, ?_, hpre, ?_, htld2, htldA⟩
            · intro hnil
              rw [hnil] at hemp
              exact hemp rfl
            · intro c hc
              exact List.mem_takeWhile_imp hc
            · intro c hc
              have hcd : c ∈ rest2.takeWhile classB := by
                rw [hdom]
                simp [hc]
              exact List.mem_takeWhile_imp hcd
      · rw [if_neg ha] at h
        exact Option.noConfusion h

theorem matchAt_complete {s : List Char} (h : startsMatch s) : (matchAt s).isSome := by
  obtain ⟨m, r, rfl, l, d, t, rfl, hl, hlA, hd, hdB, ht2, htA⟩ := h
  have htB : ∀ c ∈ t, classB c := fun c hc => alpha_classB (htA c hc)
  have hassoc : (l ++ '@' :: (d ++ '.' :: t)) ++ r = l ++ '@' :: (d ++ '.' :: (t ++ r)) := by
    simp
  rw [hassoc]
  unfold matchAt
  have htw : (l ++ '@' :: (d ++ '.' :: (t ++ r))).takeWhile classA = l := by
    rw [List.takeWhile_append_of_pos hlA, List.takeWhile_cons_of_neg (by simp [classA_at])]
    simp
  have hdw : (l ++ '@' :: (d ++ '.' :: (t ++ r))).dropWhile classA =
      '@' :: (d ++ '.' :: (t ++ r)) := by
    rw [List.dropWhile_append_of_pos hlA, List.dropWhile_cons_of_neg (by simp [classA_at])]
  rw [htw, hdw, if_neg (by simpa using hl)]
  dsimp only
  rw [if_pos rfl]
  have hdom : (d ++ '.' :: (t ++ r)).takeWhile classB =
      d ++ '.' :: (t ++ r.takeWhile classB) := by
    rw [List.takeWhile_append_of_pos hdB, List.takeWhile_cons_of_pos classB_dot,
      List.takeWhile_append_of_pos htB]
  rw [hdom]
  have hlen : (d ++ '.' :: (t ++ r.takeWhile classB)).length =
      d.length + 1 + t.length + (r.takeWhile classB).length := by
    simp; omega
  have hdl : 1 ≤ d.length := List.length_pos.2 hd
  cases htr : trySplitAux (d ++ '.' :: (t ++ r.takeWhile classB))
      ((d ++ '.' :: (t ++ r.takeWhile classB)).length - 1) with
  | none =>
    exfalso
    refine trySplitAux_none htr d.length hdl (by omega) ⟨?_, ?_⟩
    · rw [List.get?_append_right (Nat.le_refl _)]
      simp
    · have hdrop : (d ++ '.' :: (t ++ r.takeWhile classB)).drop (d.length + 1) =
          t ++ r.takeWhile classB := by
        have : d ++ '.' :: (t ++ r.takeWhile classB) =
            (d ++ ['.']) ++ (t ++ r.takeWhile classB) := by simp
        rw [this, List.drop_left' (by simp)]
      rw [hdrop, List.takeWhile_append_of_pos htA]
      simp
      omega
  | some x =>
    obtain ⟨pre, tld, leftover⟩ := x
    simp

theorem matchAt_none {s : List Char} (h : matchAt s = none) : ¬ startsMatch s := by
  intro hs
  have := matchAt_complete hs
  rw [h] at this
  exact Bool.noConfusion this

theorem scanRel_findAllAux :
    ∀ (fuel : Nat) (s : List Char), s.length ≤ fuel → ScanRel s (findAllAux fuel s) := by
  intro fuel
  induction fuel with
  | zero =>
    intro s hs
    have : s = [] := List.eq_nil_of_length_eq_zero (Nat.le_zero.1 hs)
    subst this
    exact .nil
  | succ f ih =>
    intro s hs
    cases s with
    | nil => exact .nil
    | cons c cs =>
      cases hm : matchAt (c :: cs) with
      | none =>
        have heq : findAllAux (f + 1) (c :: cs) = findAllAux f cs := by
          rw [findAllAux, hm]
        rw [heq]
        exact .skip c cs _ (matchAt_none hm)
          (ih cs (by simpa using Nat.le_of_succ_le_succ hs))
      | some p =>
        obtain ⟨m, rest⟩ := p
        obtain ⟨hsplit, hpm⟩ := matchAt_sound hm
        have hmne : 1 ≤ m.length := List.length_pos.2 (PatMatch_ne_nil hpm)
        have hrl : rest.length ≤ f := by
          have hln := congrArg List.length hsplit
          simp [List.length_append] at hln
          simp at hs
          omega
        have heq : findAllAux (f + 1) (c :: cs) = m :: findAllAux f rest := by
          rw [findAllAux, hm]
        rw [heq, hsplit]
        exact .found m rest _ hpm (ih rest hrl)

/-- C2: the matches collected by `find_emails` are exactly the
non-overlapping, left-to-right, literal matches of the email pattern
(one-or-more local-part characters, `'@'`, one-or-more domain characters,
`'.'`, two-or-more letters): every collected match is a full pattern match,
matches are consumed left to right without overlap, and no position where a
match starts is skipped; in particular
`"contact: JOHN.DOE+test@Sub-Domain.Example.CO"` yields exactly
`"JOHN.DOE+test@Sub-Domain.Example.CO"` and `"not-an-email@"` yields no
matches. -/
theorem find_emails_matches_pattern :
    (∀ t : String, ScanRel t.data ((find_emails (some t)).map String.data)) ∧
    find_emails (some "contact: JOHN.DOE+test@Sub-Domain.Example.CO") =
      ["JOHN.DOE+test@Sub-Domain.Example.CO"] ∧
    find_emails (some "not-an-email@") = [] := by
  refine ⟨fun t => ?_, by rfl, by rfl⟩
  have hmap : (find_emails (some t)).map String.data = findAllAux t.data.length t.data := by
    show ((findAllAux t.data.length t.data).map String.mk).map String.data = _
    rw [List.map_map]
    have hid : String.data ∘ String.mk = id := rfl
    rw [hid, List.map_id]
  rw [hmap]
  exact scanRel_findAllAux t.data.length t.data (Nat.le_refl _)

/-! ### Lemmas about the `cols_lower` dictionary -/

theorem dictInsert_cons_ne {q : String × String} {m : List (String × String)} {k v : String}
    (hq : (q.1 == k) = false) : dictInsert (q :: m) k v = q :: dictInsert m k v := by
  unfold dictInsert
  by_cases hm : m.any (fun p => p.1 == k)
  · rw [if_pos (by simp [List.any_cons, hm]), if_pos hm, List.map_cons,
      if_neg (by simp [hq])]
  · rw [if_neg (by simp [List.any_cons, hq, hm]), if_neg hm]
    simp

theorem dictInsert_cons_eq {q : String × String} {m : List (String × String)} {k v : String}
    (hq : (q.1 == k) = true) :
    dictInsert (q :: m) k v = (k, v) :: m.map (fun p => if p.1 == k then (k, v) else p) := by
  unfold dictInsert
  rw [if_pos (by simp [List.any_cons, hq]), List.map_cons, if_pos hq]

theorem dictInsert_mem {m : List (String × String)} {k v : String} {p : String × String}
    (h : p ∈ dictInsert m k v) : p ∈ m ∨ p = (k, v) := by
  unfold dictInsert at h
  by_cases hk : m.any (fun q => q.1 == k)
  · rw [if_pos hk] at h
    obtain ⟨q, hq, hqe⟩ := List.mem_map.1 h
    by_cases hq1 : (q.1 == k) = true
    · rw [if_pos hq1] at hqe
      right; exact hqe.symm
    · rw [if_neg hq1] at hqe
      left; exact hqe ▸ hq
  · rw [if_neg hk] at h
    rcases List.mem_append.1 h with h | h
    · exact Or.inl h
    · right; simpa using h

theorem colsLower_values {cols : List String} :
    ∀ {m : List (String × String)} {p : String × String},
    p ∈ cols.foldl (fun m c => dictInsert m (lowerStr c) c) m → p ∈ m ∨ p.2 ∈ cols := by
  induction cols with
  | nil => intro m p h; exact Or.inl h
  | cons c cs ih =>
    intro m p h
    rw [List.foldl_cons] at h
    rcases ih h with h' | h'
    · rcases dictInsert_mem h' with h'' | h''
      · exact Or.inl h''
      · right; rw [h'']; exact List.mem_cons_self _ _
    · right; exact List.mem_cons_of_mem _ h'

theorem find?_map_dict (qs : List (String × String)) (k k' v : String) (hne : k' ≠ k) :
    (qs.map (fun p => if p.1 == k then (k, v) else p)).find? (fun p => p.1 == k') =
      qs.find? (fun p => p.1 == k') := by
  induction qs with
  | nil => rfl
  | cons q qs ih =>
    by_cases hq : (q.1 == k) = true
    · have hq1 : q.1 = k := by simpa using hq
      rw [List.map_cons, if_pos hq]
      rw [List.find?_cons_of_neg (p := fun x : String × String => x.1 == k') _ (by simp [Ne.symm hne]),
        List.find?_cons_of_neg (p := fun x : String × String => x.1 == k') _ (by simp [hq1, Ne.symm hne]), ih]
    · rw [List.map_cons, if_neg hq]
      by_cases hq' : (q.1 == k') = true
      · rw [List.find?_cons_of_pos (p := fun x : String × String => x.1 == k') _ hq',
          List.find?_cons_of_pos (p := fun x : String × String => x.1 == k') _ hq']
      · rw [List.find?_cons_of_neg (p := fun x : String × String => x.1 == k') _ hq',
          List.find?_cons_of_neg (p := fun x : String × String => x.1 == k') _ hq', ih]

theorem lookupD_dictInsert_self (m : List (String × String)) (k v : String) :
    lookupD (dictInsert m k v) k = some v := by
  induction m with
  | nil =>
    unfold dictInsert lookupD
    simp
  | cons q qs ih =>
    by_cases hq : (q.1 == k) = true
    · rw [dictInsert_cons_eq hq]
      unfold lookupD
      rw [List.find?_cons_of_pos (p := fun x : String × String => x.1 == k) _ (by simp)]
      rfl
    · rw [dictInsert_cons_ne (by simpa using hq)]
      unfold lookupD at ih ⊢
      rw [List.find?_cons_of_neg (p := fun x : String × String => x.1 == k) _ hq]
      exact ih

theorem lookupD_dictInsert_ne {k' k : String} (m : List (String × String)) (v : String)
    (hne : k' ≠ k) : lookupD (dictInsert m k v) k' = lookupD m k' := by
  induction m with
  | nil =>
    unfold dictInsert lookupD
    simp [Ne.symm hne]
  | cons q qs ih =>
    by_cases hq : (q.1 == k) = true
    · rw [dictInsert_cons_eq hq]
      unfold lookupD
      have hq1 : q.1 = k := by simpa using hq
      rw [List.find?_cons_of_neg (p := fun x : String × String => x.1 == k') _ (by simp [Ne.symm hne]),
        List.find?_cons_of_neg (p := fun x : String × String => x.1 == k') _ (by simp [hq1, Ne.symm hne]),
        find?_map_dict _ _ _ _ hne]
    · rw [dictInsert_cons_ne (by simpa using hq)]
      unfold lookupD at ih ⊢
      by_cases hq' : (q.1 == k') = true
      · rw [List.find?_cons_of_pos (p := fun x : String × String => x.1 == k') _ hq',
          List.find?_cons_of_pos (p := fun x : String × String => x.1 == k') _ hq']
      · rw [List.find?_cons_of_neg (p := fun x : String × String => x.1 == k') _ hq',
          List.find?_cons_of_neg (p := fun x : String × String => x.1 == k') _ hq']
        exact ih

theorem lookupD_foldl_none :
    ∀ (cols : List String) (m : List (String × String)) (k : String),
    (∀ c ∈ cols, lowerStr c ≠ k) →
    lookupD (cols.foldl (fun m c => dictInsert m (lowerStr c) c) m) k = lookupD m k := by
  intro cols
  induction cols with
  | nil => intro m k _; rfl
  | cons c cs ih =>
    intro m k hno
    rw [List.foldl_cons, ih _ k (fun c' hc' => hno c' (List.mem_cons_of_mem _ hc')),
      lookupD_dictInsert_ne _ _ (fun he => hno c (List.mem_cons_self _ _) he.symm)]

theorem lookupD_foldl_exists :
    ∀ (cols : List String) (m : List (String × String)) (k : String),
    (∃ c ∈ cols, lowerStr c = k) →
    ∃ v, lookupD (cols.foldl (fun m c => dictInsert m (lowerStr c) c) m) k = some v ∧
      v ∈ cols ∧ lowerStr v = k := by
  intro cols
  induction cols with
  | nil => intro m k h; simp at h
  | cons c cs ih =>
    intro m k hex
    rw [List.foldl_cons]
    by_cases hcs : ∃ c' ∈ cs, lowerStr c' = k
    · obtain ⟨v, hv, hvm, hvl⟩ := ih (dictInsert m (lowerStr c) c) k hcs
      exact ⟨v, hv, List.mem_cons_of_mem _ hvm, hvl⟩
    · push_neg at hcs
      have hck : lowerStr c = k := by
        obtain ⟨c', hc', hcl⟩ := hex
        rcases List.mem_cons.1 hc' with rfl | hmem
        · exact hcl
        · exact absurd hcl (hcs c' hmem)
      rw [lookupD_foldl_none cs _ k hcs, hck, lookupD_dictInsert_self]
      exact ⟨c, rfl, List.mem_cons_self _ _, hck⟩

theorem colsLower_eq_map :
    ∀ (cols : List String) (m : List (String × String)),
    (cols.map lowerStr).Nodup →
    (∀ c ∈ cols, ∀ p ∈ m, p.1 ≠ lowerStr c) →
    cols.foldl (fun m c => dictInsert m (lowerStr c) c) m =
      m ++ cols.map (fun c => (lowerStr c, c)) := by
  intro cols
  induction cols with
  | nil => intro m _ _; simp
  | cons c cs ih =>
    intro m hnd hfresh
    rw [List.map_cons] at hnd
    obtain ⟨hc, hnd'⟩ := List.nodup_cons.1 hnd
    rw [List.foldl_cons]
    have hins : dictInsert m (lowerStr c) c = m ++ [(lowerStr c, c)] := by
      unfold dictInsert
      rw [if_neg]
      simp only [List.any_eq_true, not_exists, not_and]
      intro p hp
      simp [hfresh c (List.mem_cons_self _ _) p hp]
    have hfresh' : ∀ c' ∈ cs, ∀ p ∈ m ++ [(lowerStr c, c)], p.1 ≠ lowerStr c' := by
      intro c' hc' p hp
      rcases List.mem_append.1 hp with hp | hp
      · exact hfresh c' (List.mem_cons_of_mem _ hc') p hp
      · simp at hp
        rw [hp]
        intro he
        have : lowerStr c = lowerStr c' := he
        exact hc (this ▸ List.mem_map_of_mem lowerStr hc')
    rw [hins, ih (m ++ [(lowerStr c, c)]) hnd' hfresh']
    simp

/-! ### Column-resolution theorems -/

/-- On a nonempty column list, resolution always succeeds with an existing
column. -/
theorem resolveColumn_mem (cols : List String) (req : String) (h : cols ≠ []) :
    ∃ v, resolveColumn cols req = some v ∧ v ∈ cols := by
  cases hl : lookupD (colsLower cols) (lowerStr req) with
  | some v =>
    refine ⟨v, ?_, ?_⟩
    · unfold resolveColumn
      rw [hl]
    · unfold lookupD at hl
      obtain ⟨p, hp, hp2⟩ := Option.map_eq_some'.1 hl
      have hpm := List.mem_of_find?_eq_some hp
      unfold colsLower at hpm
      rcases colsLower_values hpm with h' | h'
      · simp at h'
      · rw [← hp2]; exact h'
  | none =>
    cases hf : (colsLower cols).find? (fun p => hintHit p.1) with
    | some p =>
      refine ⟨p.2, ?_, ?_⟩
      · unfold resolveColumn
        rw [hl, hf]
        rfl
      · have hpm := List.mem_of_find?_eq_some hf
        unfold colsLower at hpm
        rcases colsLower_values hpm with h' | h'
        · simp at h'
        · exact h'
    | none =>
      cases cols with
      | nil => exact absurd rfl h
      | cons c cs =>
        refine ⟨c, ?_, List.mem_cons_self _ _⟩
        unfold resolveColumn
        rw [hl, hf]
        rfl

/-- C4: for every dataset with at least one column and every requested
name, the resolver returns the name of a column that exists in the dataset
and never fails. -/
theorem resolve_returns_existing (cols : List String) (req : String) (h : cols ≠ []) :
    ∃ v, resolveColumn cols req = some v ∧ v ∈ cols :=
  resolveColumn_mem cols req h

/-- Witness for C4 at a concrete dataset. -/
theorem resolve_returns_existing_witness :
    (["X"] : List String) ≠ [] ∧ ∃ v, resolveColumn ["X"] "Quota" = some v ∧ v ∈ ["X"] :=
  ⟨by decide, resolve_returns_existing ["X"] "Quota" (by decide)⟩

/-- C5: a column case-insensitively equal to the requested name wins over
everything else: the resolver returns a column whose lowered name equals the
lowered requested name, and when that column is unique it returns exactly
that column, whatever the other columns are named. -/
theorem resolve_exact_match (cols : List String) (req c : String)
    (hc : c ∈ cols) (hlow : lowerStr c = lowerStr req) :
    (∃ v, resolveColumn cols req = some v ∧ v ∈ cols ∧ lowerStr v = lowerStr req) ∧
    ((∀ x ∈ cols, lowerStr x = lowerStr req → x = c) → resolveColumn cols req = some c) := by
  obtain ⟨v, hv, hvm, hvl⟩ := lookupD_foldl_exists cols [] (lowerStr req) ⟨c, hc, hlow⟩
  have hv' : lookupD (colsLower cols) (lowerStr req) = some v := hv
  constructor
  · refine ⟨v, ?_, hvm, hvl⟩
    unfold resolveColumn
    rw [hv']
  · intro huniq
    unfold resolveColumn
    rw [hv', huniq v hvm hvl]

/-- Witness for C5: an exact case-insensitive match beats a hint column. -/
theorem resolve_exact_match_witness :
    ("DESC" ∈ ["Organisation data", "DESC"]) ∧
      lowerStr "DESC" = lowerStr "desc" ∧
      resolveColumn ["Organisation data", "DESC"] "desc" = some "DESC" := by
  refine ⟨by decide, by decide, ?_⟩
  exact (resolve_exact_match ["Organisation data", "DESC"] "desc" "DESC"
    (by decide) (by decide)).2 (by decide)

/-- C3 counterexample: with columns `["My Info", "The Organisation"]` and no
exact match, the code returns `"My Info"` (first column containing any
hint), while the category-then-column scan of the specification returns
`"The Organisation"`. -/
theorem resolve_hint_scan_counterexample :
    resolveColumn ["My Info", "The Organisation"] "Description" = some "My Info" ∧
    specResolveHints ["My Info", "The Organisation"] = some "The Organisation" ∧
    ("My Info" : String) ≠ "The Organisation" := by
  exact ⟨by rfl, by rfl, by decide⟩

/-- A lowered-name list without duplicates makes the dictionary one entry
per column in column order; the hint scan is then a scan over columns. -/
theorem resolve_hint_scan_nodup (cols : List String) (req : String)
    (hnd : (cols.map lowerStr).Nodup)
    (hno : ∀ c ∈ cols, lowerStr c ≠ lowerStr req) :
    resolveColumn cols req =
      match cols.find? (fun c => hintHit (lowerStr c)) with
      | some c => some c
      | none => cols.head? := by
  have hmap : colsLower cols = cols.map (fun c => (lowerStr c, c)) := by
    have := colsLower_eq_map cols [] hnd (by intro c _ p hp; simp at hp)
    simpa using this
  have hl : lookupD (colsLower cols) (lowerStr req) = none := by
    rw [hmap]
    unfold lookupD
    rw [List.find?_eq_none.2 ?_]
    · rfl
    · rintro p hp
      obtain ⟨c, hc, rfl⟩ := List.mem_map.1 hp
      simp
      exact hno c hc
  have hf : (colsLower cols).find? (fun p => hintHit p.1) =
      (cols.find? (fun c => hintHit (lowerStr c))).map (fun c => (lowerStr c, c)) := by
    rw [hmap, List.find?_map]
    rfl
  unfold resolveColumn
  rw [hl, hf]
  cases hff : cols.find? (fun c => hintHit (lowerStr c)) with
  | some c => rfl
  | none => rfl

/-- C6: a dataset with zero columns makes processing fail for every
requested column name (the code raises at the first-column fallback,
modelled by the `none` result). -/
theorem process_no_columns (req : String) (rows : List (List (Option String))) :
    process ⟨[], rows⟩ req = none := rfl

/-- C10: a blank (or missing, hence empty) requested column name defaults to
`"Description"`, so resolution proceeds exactly as if `"Description"` had
been requested. -/
theorem default_description (s : String) (cols : List String) (h : trimStr s = "") :
    requestedColumn s = "Description" ∧
    resolveColumn cols (requestedColumn s) = resolveColumn cols "Description" := by
  have h1 : requestedColumn s = "Description" := by
    unfold requestedColumn
    simp [h]
  exact ⟨h1, by rw [h1]⟩

/-- Witness for C10 on a whitespace-only form value. -/
theorem default_description_witness :
    trimStr "  " = "" ∧ (requestedColumn "  " = "Description" ∧
      resolveColumn ["X"] (requestedColumn "  ") = resolveColumn ["X"] "Description") :=
  ⟨by decide, default_description "  " ["X"] (by decide)⟩

/-! ### Dataset-level lemmas about `process` -/

theorem process_eq_of_no_emails {d : Dataset} {req col : String} {out : Dataset}
    (hne : "Emails" ∉ d.cols)
    (hres : resolveColumn d.cols req = some col)
    (hout : process d req = some out) :
    out = ⟨d.cols ++ ["Emails"],
      d.rows.map (fun r => r ++ [some (emailsCellValue (cellAt d.cols r col))])⟩ := by
  unfold process at hout
  rw [hres] at hout
  dsimp only at hout
  have hIdx : d.cols.findIdx? (fun x => x == "Emails") = none := by
    rw [List.findIdx?_eq_none_iff]
    intro x hx
    simp only [beq_eq_false_iff_ne, ne_eq]
    intro h
    exact hne (h ▸ hx)
  rw [hIdx] at hout
  exact (Option.some.inj hout).symm

theorem cellAt_of_findIdx? {cols : List String} {r : List (Option String)} {c : String}
    {j : Nat} (h : cols.findIdx? (fun x => x == c) = some j) :
    cellAt cols r c = (r.get? j).getD none := by
  unfold cellAt
  rw [h]

theorem getCell_process_append {d : Dataset} {col c : String} {i : Nat}
    (hal : ∀ r ∈ d.rows, r.length = d.cols.length)
    (hc : c ∈ d.cols) :
    getCell ⟨d.cols ++ ["Emails"],
      d.rows.map (fun r => r ++ [some (emailsCellValue (cellAt d.cols r col))])⟩ c i =
    getCell d c i := by
  unfold getCell
  dsimp only
  rw [List.get?_map]
  cases hri : d.rows.get? i with
  | none => rfl
  | some r =>
    simp only [Option.map_some']
    have hj : d.cols.findIdx? (fun x => x == c) =
        some (d.cols.findIdx (fun x => x == c)) :=
      List.findIdx?_eq_some_of_exists ⟨c, hc, by simp⟩
    obtain ⟨hjl, -, -⟩ := List.findIdx?_eq_some_iff_getElem.1 hj
    have hj2 : (d.cols ++ ["Emails"]).findIdx? (fun x => x == c) =
        some (d.cols.findIdx (fun x => x == c)) := by
      rw [List.findIdx?_append, hj, Option.or_some]
    have hrl : r.length = d.cols.length := hal r (List.get?_mem hri)
    rw [cellAt_of_findIdx? hj2, cellAt_of_findIdx? hj, List.get?_eq_getElem?,
      List.get?_eq_getElem?, List.getElem?_append_left (by omega)]

theorem find?_hint_map_dict (qs : List (String × String)) (v : String) :
    (qs.map (fun p => if p.1 == "emails" then ("emails", v) else p)).find?
        (fun p => hintHit p.1) =
      qs.find? (fun p => hintHit p.1) := by
  induction qs with
  | nil => rfl
  | cons q qs ih =>
    by_cases hq : (q.1 == "emails") = true
    · have hq1 : q.1 = "emails" := by simpa using hq
      rw [List.map_cons, if_pos hq,
        List.find?_cons_of_neg (p := fun x : String × String => hintHit x.1) _
          (by show ¬hintHit "emails" = true; decide),
        List.find?_cons_of_neg (p := fun x : String × String => hintHit x.1) _
          (by show ¬hintHit q.1 = true; rw [hq1]; decide), ih]
    · rw [List.map_cons, if_neg hq]
      by_cases hq' : hintHit q.1 = true
      · rw [List.find?_cons_of_pos (p := fun x : String × String => hintHit x.1) _ hq',
          List.find?_cons_of_pos (p := fun x : String × String => hintHit x.1) _ hq']
      · rw [List.find?_cons_of_neg (p := fun x : String × String => hintHit x.1) _ hq',
          List.find?_cons_of_neg (p := fun x : String × String => hintHit x.1) _ hq', ih]

theorem find?_hint_dictInsert (M : List (String × String)) :
    ((dictInsert M "emails" "Emails").find? (fun p => hintHit p.1)).map (fun p => p.2) =
      (M.find? (fun p => hintHit p.1)).map (fun p => p.2) := by
  unfold dictInsert
  by_cases hk : M.any (fun p => p.1 == "emails")
  · rw [if_pos hk, find?_hint_map_dict]
  · rw [if_neg hk, List.find?_append]
    have hsing : List.find? (fun p => hintHit p.1)
        [(("emails" : String), ("Emails" : String))] = none := by
      rw [List.find?_cons_of_neg (p := fun x : String × String => hintHit x.1) _ (by decide)]
      rfl
    rw [hsing, Option.or_none]

theorem resolve_append_emails (cols : List String) (req : String)
    (hcols : cols ≠ [])
    (hreq : lowerStr req ≠ "emails") :
    resolveColumn (cols ++ ["Emails"]) req = resolveColumn cols req := by
  have hfold : colsLower (cols ++ ["Emails"]) = dictInsert (colsLower cols) "emails" "Emails" := by
    unfold colsLower
    rw [List.foldl_append]
    rfl
  unfold resolveColumn
  rw [hfold, lookupD_dictInsert_ne _ _ hreq, find?_hint_dictInsert]
  cases lookupD (colsLower cols) (lowerStr req) with
  | some v => rfl
  | none =>
    cases ((colsLower cols).find? (fun p => hintHit p.1)).map (fun p => p.2) with
    | some g => rfl
    | none =>
      cases cols with
      | nil => exact absurd rfl hcols
      | cons c cs => rfl

theorem process_emails_cell {d : Dataset} {req col : String} {out : Dataset} {i : Nat}
    (hal : ∀ r ∈ d.rows, r.length = d.cols.length)
    (hres : resolveColumn d.cols req = some col)
    (hout : process d req = some out)
    (hi : i < d.rows.length) :
    getCell out "Emails" i = some (emailsCellValue (getCell d col i)) := by
  unfold process at hout
  rw [hres] at hout
  dsimp only at hout
  obtain ⟨r, hr⟩ : ∃ r, d.rows.get? i = some r := by
    rw [List.get?_eq_getElem?]
    exact ⟨d.rows[i], List.getElem?_eq_getElem hi⟩
  have hrl : r.length = d.cols.length := hal r (List.get?_mem hr)
  have hcell : getCell d col i = cellAt d.cols r col := by
    unfold getCell
    rw [hr]
  rw [hcell]
  cases hIdx : d.cols.findIdx? (fun x => x == "Emails") with
  | some j =>
    rw [hIdx] at hout
    dsimp only at hout
    have hE : out = ⟨d.cols, d.rows.map
        (fun r => r.set j (some (emailsCellValue (cellAt d.cols r col))))⟩ :=
      (Option.some.inj hout).symm
    subst hE
    obtain ⟨hjl, -, -⟩ := List.findIdx?_eq_some_iff_getElem.1 hIdx
    unfold getCell
    dsimp only
    rw [List.get?_map, hr]
    simp only [Option.map_some']
    rw [cellAt_of_findIdx? hIdx, List.get?_eq_getElem?, List.getElem?_set_self (by omega)]
    rfl
  | none =>
    rw [hIdx] at hout
    dsimp only at hout
    have hE : out = ⟨d.cols ++ ["Emails"], d.rows.map
        (fun r => r ++ [some (emailsCellValue (cellAt d.cols r col))])⟩ :=
      (Option.some.inj hout).symm
    subst hE
    unfold getCell
    dsimp only
    rw [List.get?_map, hr]
    simp only [Option.map_some']
    have hIdx2 : (d.cols ++ ["Emails"]).findIdx? (fun x => x == "Emails") =
        some (0 + d.cols.length) := by
      rw [List.findIdx?_append, hIdx, Option.none_or]
      rfl
    rw [cellAt_of_findIdx? hIdx2, List.get?_eq_getElem?,
      List.getElem?_append_right (by omega)]
    have hidx0 : 0 + d.cols.length - r.length = 0 := by omega
    rw [hidx0]
    rfl

/-! ### Re-scanning a written "Emails" cell

When the second run of the pipeline ends up scanning a cell that the first
run wrote (the requested name resolves to the "Emails" column), the cell
holds the newline-join of the de-duplicated matches; scanning that text
reproduces exactly the same match list. -/

theorem mem_dedup_aux {xs : List String} :
    ∀ {acc : List String} {x : String},
    x ∈ xs.foldl (fun seen e => if e ∈ seen then seen else seen ++ [e]) acc →
    x ∈ acc ∨ x ∈ xs := by
  induction xs with
  | nil => intro acc x h; exact Or.inl h
  | cons a as ih =>
    intro acc x h
    rw [List.foldl_cons] at h
    rcases ih h with h' | h'
    · by_cases ha : a ∈ acc
      · rw [if_pos ha] at h'; exact Or.inl h'
      · rw [if_neg ha] at h'
        rcases List.mem_append.1 h' with h'' | h''
        · exact Or.inl h''
        · right
          simp at h''
          simp [h'']
    · right; exact List.mem_cons_of_mem _ h'

theorem mem_dedup {xs : List String} {x : String} (h : x ∈ dedup xs) : x ∈ xs := by
  rcases mem_dedup_aux h with h' | h'
  · simp at h'
  · exact h'

theorem dedup_foldl_of_nodup :
    ∀ (xs acc : List String), (acc ++ xs).Nodup →
    xs.foldl (fun seen e => if e ∈ seen then seen else seen ++ [e]) acc = acc ++ xs := by
  intro xs
  induction xs with
  | nil => intro acc _; simp
  | cons a as ih =>
    intro acc h
    rw [List.foldl_cons]
    have ha : a ∉ acc := by
      obtain ⟨-, -, hdisj⟩ := List.nodup_append.1 h
      intro hmem
      exact hdisj hmem (List.mem_cons_self _ _)
    rw [if_neg ha, ih (acc ++ [a]) (by simpa using h)]
    simp

theorem dedup_nodup_aux :
    ∀ (xs acc : List String), acc.Nodup →
    (xs.foldl (fun seen e => if e ∈ seen then seen else seen ++ [e]) acc).Nodup := by
  intro xs
  induction xs with
  | nil => intro acc h; exact h
  | cons a as ih =>
    intro acc h
    rw [List.foldl_cons]
    by_cases ha : a ∈ acc
    · rw [if_pos ha]; exact ih acc h
    · rw [if_neg ha]
      exact ih (acc ++ [a]) (by simp [List.nodup_append, h, ha])

theorem dedup_nodup (xs : List String) : (dedup xs).Nodup :=
  dedup_nodup_aux xs [] List.nodup_nil

theorem dedup_idem (xs : List String) : dedup (dedup xs) = dedup xs := by
  have h := dedup_foldl_of_nodup (dedup xs) [] (by simpa using dedup_nodup xs)
  simpa using h

theorem dedup_length_aux :
    ∀ (xs acc : List String),
    acc.length ≤ (xs.foldl (fun seen e => if e ∈ seen then seen else seen ++ [e]) acc).length := by
  intro xs
  induction xs with
  | nil => intro acc; exact Nat.le_refl _
  | cons a as ih =>
    intro acc
    rw [List.foldl_cons]
    by_cases ha : a ∈ acc
    · rw [if_pos ha]; exact ih acc
    · rw [if_neg ha]
      calc acc.length ≤ (acc ++ [a]).length := by simp
        _ ≤ _ := ih (acc ++ [a])

theorem dedup_ne_nil {xs : List String} (h : xs ≠ []) : dedup xs ≠ [] := by
  cases xs with
  | nil => exact absurd rfl h
  | cons a as =>
    intro hnil
    have h1 := dedup_length_aux as [a]
    unfold dedup at hnil
    rw [List.foldl_cons, if_neg (by simp), List.nil_append] at hnil
    rw [hnil] at h1
    simp at h1

theorem trySplitAux_exact {d t : List Char} (hd : d ≠ [])
    (ht2 : 2 ≤ t.length) (htA : ∀ c ∈ t, c.isAlpha) :
    ∀ n, d.length ≤ n → n ≤ d.length + t.length →
    trySplitAux (d ++ '.' :: t) n = some (d, t, []) := by
  intro n
  induction n with
  | zero =>
    intro h1 _
    have := List.length_pos.2 hd
    omega
  | succ p ih =>
    intro h1 h2
    rw [trySplitAux]
    by_cases hcase : p + 1 = d.length
    · have hget : (d ++ '.' :: t).get? (p + 1) = some '.' := by
        rw [hcase, List.get?_append_right (Nat.le_refl _)]
        simp
      rw [if_pos hget]
      have hdrop : (d ++ '.' :: t).drop (p + 2) = t := by
        have hsplit : d ++ '.' :: t = (d ++ ['.']) ++ t := by simp
        rw [hsplit, List.drop_left' (by simp [← hcase])]
      have htake : t.takeWhile Char.isAlpha = t := by
        rw [← List.append_nil t, List.takeWhile_append_of_pos htA]
        simp
      have hdropw : t.dropWhile Char.isAlpha = [] := by
        rw [← List.append_nil t, List.dropWhile_append_of_pos htA]
        rfl
      rw [hdrop, htake, if_pos ht2, hdropw]
      have htakeL : (d ++ '.' :: t).take (p + 1) = d := by
        rw [hcase, List.take_left]
      rw [htakeL]
    · have hlt : d.length < p + 1 := by omega
      have hget : (d ++ '.' :: t).get? (p + 1) ≠ some '.' := by
        rw [List.get?_append_right (by omega),
          show p + 1 - d.length = (p - d.length) + 1 from by omega, List.get?_cons_succ]
        have hidx : p - d.length < t.length := by omega
        rw [List.get?_eq_getElem?, List.getElem?_eq_getElem hidx]
        intro hEq
        have halpha := htA _ (List.getElem_mem hidx)
        rw [Option.some.inj hEq] at halpha
        exact absurd halpha (by decide)
      rw [if_neg hget]
      exact ih (by omega) (by omega)

theorem matchAt_rematch {l d t r : List Char}
    (hl : l ≠ []) (hlA : ∀ c ∈ l, classA c)
    (hd : d ≠ []) (hdB : ∀ c ∈ d, classB c)
    (ht2 : 2 ≤ t.length) (htA : ∀ c ∈ t, c.isAlpha)
    (hr : r.takeWhile classB = []) :
    matchAt ((l ++ '@' :: (d ++ '.' :: t)) ++ r) =
      some (l ++ '@' :: (d ++ '.' :: t), r) := by
  have htB : ∀ c ∈ t, classB c := fun c hc => alpha_classB (htA c hc)
  have hassoc : (l ++ '@' :: (d ++ '.' :: t)) ++ r = l ++ '@' :: (d ++ '.' :: (t ++ r)) := by
    simp
  rw [hassoc]
  unfold matchAt
  have htw : (l ++ '@' :: (d ++ '.' :: (t ++ r))).takeWhile classA = l := by
    rw [List.takeWhile_append_of_pos hlA, List.takeWhile_cons_of_neg (by simp [classA_at])]
    simp
  have hdw : (l ++ '@' :: (d ++ '.' :: (t ++ r))).dropWhile classA =
      '@' :: (d ++ '.' :: (t ++ r)) := by
    rw [List.dropWhile_append_of_pos hlA, List.dropWhile_cons_of_neg (by simp [classA_at])]
  rw [htw, hdw, if_neg (by simpa using hl)]
  dsimp only
  rw [if_pos rfl]
  have hrd : r.dropWhile classB = r := by
    have := List.takeWhile_append_dropWhile classB r
    rw [hr] at this
    simpa using this
  have hdom : (d ++ '.' :: (t ++ r)).takeWhile classB = d ++ '.' :: t := by
    rw [List.takeWhile_append_of_pos hdB, List.takeWhile_cons_of_pos classB_dot,
      List.takeWhile_append_of_pos htB, hr]
    simp
  have hdomd : (d ++ '.' :: (t ++ r)).dropWhile classB = r := by
    rw [List.dropWhile_append_of_pos hdB, List.dropWhile_cons_of_pos classB_dot,
      List.dropWhile_append_of_pos htB, hrd]
  rw [hdom, hdomd, trySplitAux_exact hd ht2 htA ((d ++ '.' :: t).length - 1)
    (by simp) (by simp)]
  simp

theorem matchAt_not_classA {c : Char} (hc : classA c = false) (s : List Char) :
    matchAt (c :: s) = none := by
  unfold matchAt
  rw [List.takeWhile_cons_of_neg (by simp [hc])]
  rfl

theorem findAllAux_cons (fuel : Nat) (c : Char) (cs : List Char) :
    findAllAux (fuel + 1) (c :: cs) =
      match matchAt (c :: cs) with
      | some (m, rest) => m :: findAllAux fuel rest
      | none => findAllAux fuel cs := rfl

/-- The character list of the newline-join, tail part. -/
def tailJoinData : List String → List Char
  | [] => []
  | b :: bs => '\n' :: (b.data ++ tailJoinData bs)

/-- The character list of the newline-join of a nonempty list. -/
def joinData : List String → List Char
  | [] => []
  | a :: as => a.data ++ tailJoinData as

theorem intercalate_go_data :
    ∀ (as : List String) (acc : String),
    (String.intercalate.go acc "\n" as).data = acc.data ++ tailJoinData as := by
  intro as
  induction as with
  | nil => intro acc; simp [String.intercalate.go, tailJoinData]
  | cons b bs ih =>
    intro acc
    rw [show String.intercalate.go acc "\n" (b :: bs) =
        String.intercalate.go (acc ++ "\n" ++ b) "\n" bs from rfl, ih]
    simp [tailJoinData]

theorem intercalate_data (a : String) (as : List String) :
    (String.intercalate "\n" (a :: as)).data = joinData (a :: as) := by
  rw [show String.intercalate "\n" (a :: as) = String.intercalate.go a "\n" as from rfl,
    intercalate_go_data]
  rfl

theorem findAllAux_joinData :
    ∀ (D : List String) (fuel : Nat),
    (∀ m ∈ D, PatMatch m.data) → (joinData D).length ≤ fuel →
    findAllAux fuel (joinData D) = D.map String.data := by
  intro D
  induction D with
  | nil =>
    intro fuel _ _
    cases fuel <;> rfl
  | cons a as ih =>
    intro fuel hPM hlen
    obtain ⟨l, dd, t, hadata, hlne, hlA, hdne, hdB, ht2, htA⟩ :=
      hPM a (List.mem_cons_self _ _)
    have hr : (tailJoinData as).takeWhile classB = [] := by
      cases as with
      | nil => rfl
      | cons b bs =>
        rw [tailJoinData, List.takeWhile_cons_of_neg (by decide)]
    have hm : matchAt (a.data ++ tailJoinData as) = some (a.data, tailJoinData as) := by
      rw [hadata]
      exact matchAt_rematch hlne hlA hdne hdB ht2 htA hr
    have hane : a.data ≠ [] := by
      rw [hadata]
      simp [hlne]
    have hjoin : joinData (a :: as) = a.data ++ tailJoinData as := rfl
    cases hdata : a.data with
    | nil => exact absurd hdata hane
    | cons c cs =>
      have hjoin2 : joinData (a :: as) = c :: (cs ++ tailJoinData as) := by
        rw [hjoin, hdata]
        rfl
      cases fuel with
      | zero =>
        exfalso
        rw [hjoin2] at hlen
        simp at hlen
      | succ f =>
        rw [hjoin2, findAllAux]
        have hm' : matchAt (c :: (cs ++ tailJoinData as)) = some (a.data, tailJoinData as) := by
          rw [← List.cons_append, ← hdata]
          exact hm
        rw [hm']
        dsimp only
        have hflen : (tailJoinData as).length ≤ f := by
          rw [hjoin2] at hlen
          simp at hlen
          omega
        cases as with
        | nil =>
          have h0 : tailJoinData [] = [] := rfl
          rw [h0]
          cases f <;> rfl
        | cons b bs =>
          have h1 : tailJoinData (b :: bs) = '\n' :: joinData (b :: bs) := rfl
          rw [h1]
          rw [h1] at hflen
          cases f with
          | zero => simp at hflen
          | succ f' =>
            have hnl : classA '\n' = false := by decide
            rw [findAllAux_cons, matchAt_not_classA hnl,
              ih f' (fun m hm => hPM m (List.mem_cons_of_mem _ hm)) (by simpa using hflen)]
            rfl

theorem patMatch_of_mem_findAllAux :
    ∀ {fuel : Nat} {s m : List Char}, m ∈ findAllAux fuel s → PatMatch m := by
  intro fuel
  induction fuel with
  | zero => intro s m h; simp [findAllAux] at h
  | succ f ih =>
    intro s m h
    cases s with
    | nil => simp [findAllAux] at h
    | cons c cs =>
      rw [findAllAux] at h
      cases hm : matchAt (c :: cs) with
      | none =>
        rw [hm] at h
        exact ih h
      | some p =>
        obtain ⟨mm, rest⟩ := p
        rw [hm] at h
        rcases List.mem_cons.1 h with rfl | h'
        · exact (matchAt_sound hm).2
        · exact ih h'

theorem patMatch_of_mem_find_emails {cell : Option String} {m : String}
    (h : m ∈ find_emails cell) : PatMatch m.data := by
  cases cell with
  | none => simp [find_emails] at h
  | some t =>
    unfold find_emails findEmailsText at h
    obtain ⟨lm, hlm, rfl⟩ := List.mem_map.1 h
    exact patMatch_of_mem_findAllAux hlm

theorem find_emails_join (D : List String) (hne : D ≠ [])
    (hPM : ∀ m ∈ D, PatMatch m.data) :
    find_emails (some (String.intercalate "\n" D)) = D := by
  cases D with
  | nil => exact absurd rfl hne
  | cons a as =>
    unfold find_emails findEmailsText
    dsimp only
    rw [intercalate_data]
    rw [findAllAux_joinData (a :: as) _ hPM (Nat.le_refl _)]
    rw [List.map_map]
    have hid : String.mk ∘ String.data = id := funext (fun s => rfl)
    rw [hid, List.map_id]

/-- Re-scanning the "Emails" cell text written for a cell yields the same
Email Match Set as scanning the cell itself. -/
theorem rescan_emails (cell : Option String) :
    dedup (find_emails (some (emailsCellValue cell))) = dedup (find_emails cell) := by
  unfold emailsCellValue
  by_cases hE : (find_emails cell).isEmpty = true
  · rw [if_pos hE]
    have h0 : find_emails (some "") = [] := rfl
    rw [h0, List.isEmpty_iff.1 hE]
  · rw [if_neg hE]
    have hLne : find_emails cell ≠ [] := by
      intro h0
      rw [h0] at hE
      exact hE rfl
    rw [find_emails_join (dedup (find_emails cell)) (dedup_ne_nil hLne)
      (fun m hm => patMatch_of_mem_find_emails (mem_dedup hm))]
    exact dedup_idem _

/-! ### Claim theorems about the annotation pipeline -/

/-- C1: for every row, the "Emails" cell of the output is the newline-join
of the de-duplicated (first occurrence kept, order preserved) email matches
of that row's resolved cell; in particular the text
`"a@x.com b@y.com a@x.com"` yields the cell value `"a@x.com\nb@y.com"`. -/
theorem emails_column_newline_join :
    (∀ (d : Dataset) (req col : String) (out : Dataset) (i : Nat),
      (∀ r ∈ d.rows, r.length = d.cols.length) →
      resolveColumn d.cols req = some col →
      process d req = some out →
      i < d.rows.length →
      getCell out "Emails" i = some (emailsCellValue (getCell d col i))) ∧
    emailsCellValue (some "a@x.com b@y.com a@x.com") = "a@x.com\nb@y.com" ∧
    emailsCellValue (some "a@x.com b@y.com a@x.com") =
      String.intercalate "\n" (dedup (find_emails (some "a@x.com b@y.com a@x.com"))) := by
  exact ⟨fun d req col out i hal hres hout hi => process_emails_cell hal hres hout hi,
    by rfl, by rfl⟩

/-- Witness for C1 on a one-row dataset. -/
theorem emails_column_newline_join_witness :
    getCell (Dataset.mk ["Description", "Emails"]
        [[some "a@x.com b@y.com a@x.com", some "a@x.com\nb@y.com"]]) "Emails" 0 =
      some (emailsCellValue (getCell (Dataset.mk ["Description"]
        [[some "a@x.com b@y.com a@x.com"]]) "Description" 0)) :=
  emails_column_newline_join.1 ⟨["Description"], [[some "a@x.com b@y.com a@x.com"]]⟩
    "Description" "Description" _ 0 (by decide) (by rfl) (by rfl) (by decide)

/-- C7: a missing/null resolved cell yields the empty string in the
"Emails" column — never a null marker and never an error. -/
theorem null_cell_yields_empty_string (d : Dataset) (req col : String) (out : Dataset) (i : Nat)
    (hal : ∀ r ∈ d.rows, r.length = d.cols.length)
    (hres : resolveColumn d.cols req = some col)
    (hout : process d req = some out)
    (hi : i < d.rows.length)
    (hnull : getCell d col i = none) :
    getCell out "Emails" i = some "" := by
  rw [process_emails_cell hal hres hout hi, hnull]
  rfl

/-- Witness for C7 on a one-row dataset with a null cell. -/
theorem null_cell_yields_empty_string_witness :
    getCell (Dataset.mk ["Description", "Emails"] [[none, some ""]]) "Emails" 0 = some "" :=
  null_cell_yields_empty_string ⟨["Description"], [[none]]⟩ "Description" "Description"
    ⟨["Description", "Emails"], [[none, some ""]]⟩ 0
    (by decide) (by rfl) (by rfl) (by decide) (by rfl)

/-- C8 counterexample: on an input that already has an "Emails" column, the
code overwrites that column in place: the output has the same column list
(nothing is appended after the original columns) and the original "Emails"
cell values are not kept. -/
theorem output_shape_counterexample :
    process ⟨["Emails"], [[some "x"]]⟩ "Emails" = some ⟨["Emails"], [[some ""]]⟩ ∧
    (Dataset.mk ["Emails"] [[some ""]]).cols ≠ ["Emails"] ++ ["Emails"] ∧
    getCell ⟨["Emails"], [[some ""]]⟩ "Emails" 0 ≠
      getCell ⟨["Emails"], [[some "x"]]⟩ "Emails" 0 := by
  exact ⟨by rfl, by decide, by decide⟩

/-- C8 amended: provided the input has no column named "Emails", the output
is the input plus one appended "Emails" column: the column list is the
input's with "Emails" appended after all original columns, the row count is
unchanged, and every original column keeps all its cell values. -/
theorem output_shape_appends_emails (d : Dataset) (req col : String) (out : Dataset)
    (hal : ∀ r ∈ d.rows, r.length = d.cols.length)
    (hne : "Emails" ∉ d.cols)
    (hres : resolveColumn d.cols req = some col)
    (hout : process d req = some out) :
    out.cols = d.cols ++ ["Emails"] ∧ out.rows.length = d.rows.length ∧
      ∀ c ∈ d.cols, ∀ i, getCell out c i = getCell d c i := by
  have hE := process_eq_of_no_emails hne hres hout
  subst hE
  exact ⟨rfl, by simp, fun c hc i => getCell_process_append hal hc⟩

/-- Witness for the amended C8 on a one-row dataset. -/
theorem output_shape_appends_emails_witness :
    (Dataset.mk ["Description", "Emails"] [[some "a@b.cc", some "a@b.cc"]]).cols =
        ["Description"] ++ ["Emails"] ∧
      (Dataset.mk ["Description", "Emails"] [[some "a@b.cc", some "a@b.cc"]]).rows.length =
        (Dataset.mk ["Description"] [[some "a@b.cc"]]).rows.length ∧
      ∀ c ∈ (Dataset.mk ["Description"] [[some "a@b.cc"]]).cols, ∀ i,
        getCell (Dataset.mk ["Description", "Emails"] [[some "a@b.cc", some "a@b.cc"]]) c i =
          getCell (Dataset.mk ["Description"] [[some "a@b.cc"]]) c i :=
  output_shape_appends_emails ⟨["Description"], [[some "a@b.cc"]]⟩ "Description" "Description"
    ⟨["Description", "Emails"], [[some "a@b.cc", some "a@b.cc"]]⟩
    (by decide) (by decide) (by rfl) (by rfl)

theorem colsLower_append_emails (cols : List String) :
    colsLower (cols ++ ["Emails"]) = dictInsert (colsLower cols) "emails" "Emails" := by
  unfold colsLower
  rw [List.foldl_append]
  rfl

theorem resolve_emails_append (cols : List String) (req : String)
    (hreq : lowerStr req = "emails") :
    resolveColumn (cols ++ ["Emails"]) req = some "Emails" := by
  unfold resolveColumn
  rw [colsLower_append_emails, hreq, lookupD_dictInsert_self]

theorem process_rows_length {d : Dataset} {req : String} {out : Dataset}
    (hout : process d req = some out) : out.rows.length = d.rows.length := by
  unfold process at hout
  cases hres : resolveColumn d.cols req with
  | none => rw [hres] at hout; exact Option.noConfusion hout
  | some col =>
    rw [hres] at hout
    dsimp only at hout
    cases hIdx : d.cols.findIdx? (fun x => x == "Emails") with
    | some j =>
      rw [hIdx] at hout
      rw [← Option.some.inj hout]
      simp
    | none =>
      rw [hIdx] at hout
      rw [← Option.some.inj hout]
      simp

theorem getCell_none_of_ge {d : Dataset} {c : String} {i : Nat}
    (h : d.rows.length ≤ i) : getCell d c i = none := by
  unfold getCell
  rw [List.get?_eq_getElem?, List.getElem?_eq_none h]

theorem getCell_process_set {d : Dataset} {col c : String} {j i : Nat}
    (hIdx : d.cols.findIdx? (fun x => x == "Emails") = some j)
    (hc : c ∈ d.cols) (hcne : c ≠ "Emails") :
    getCell ⟨d.cols, d.rows.map
      (fun r => r.set j (some (emailsCellValue (cellAt d.cols r col))))⟩ c i =
    getCell d c i := by
  unfold getCell
  dsimp only
  rw [List.get?_map]
  cases hri : d.rows.get? i with
  | none => rfl
  | some r =>
    simp only [Option.map_some']
    have hj1 : d.cols.findIdx? (fun x => x == c) =
        some (d.cols.findIdx (fun x => x == c)) :=
      List.findIdx?_eq_some_of_exists ⟨c, hc, by simp⟩
    obtain ⟨hj1l, hj1p, -⟩ := List.findIdx?_eq_some_iff_getElem.1 hj1
    obtain ⟨hjl, hjp, -⟩ := List.findIdx?_eq_some_iff_getElem.1 hIdx
    have hne : j ≠ d.cols.findIdx (fun x => x == c) := by
      intro he
      subst he
      have h1 : d.cols.get ⟨d.cols.findIdx (fun x => x == c), hjl⟩ = c := by simpa using hj1p
      have h2 : d.cols.get ⟨d.cols.findIdx (fun x => x == c), hjl⟩ = "Emails" := by simpa using hjp
      exact hcne (h1.symm.trans h2)
    rw [cellAt_of_findIdx? hj1, cellAt_of_findIdx? hj1,
      List.get?_eq_getElem?, List.get?_eq_getElem?, List.getElem?_set_ne hne]

/-- C9: annotation is idempotent on the per-row Email Match Sets: for every
input dataset (with aligned rows) and every requested column name, running
the pipeline on its own output — which carries the "Emails" column written
by the first run — produces the same de-duplicated per-row match list,
whatever column the second run resolves to (in particular, when it resolves
to the written "Emails" column itself, re-scanning the joined text yields
the same matches). -/
theorem annotate_idempotent_match_sets (d : Dataset) (req : String) (out : Dataset)
    (hal : ∀ r ∈ d.rows, r.length = d.cols.length)
    (hout : process d req = some out) :
    ∀ col1 col2, resolveColumn d.cols req = some col1 →
      resolveColumn out.cols req = some col2 →
      ∀ i, dedup (find_emails (getCell out col2 i)) =
        dedup (find_emails (getCell d col1 i)) := by
  intro col1 col2 h1 h2 i
  by_cases hi : i < d.rows.length
  · have hcols : d.cols ≠ [] := by
      intro h0
      rw [h0] at h1
      have hnone : resolveColumn [] req = none := rfl
      rw [hnone] at h1
      exact Option.noConfusion h1
    obtain ⟨v, hv, hvm⟩ := resolveColumn_mem d.cols req hcols
    have hvc : v = col1 := Option.some.inj (hv.symm.trans h1)
    subst hvc
    cases hIdx : d.cols.findIdx? (fun x => x == "Emails") with
    | some j =>
      have hE : out = ⟨d.cols, d.rows.map
          (fun r => r.set j (some (emailsCellValue (cellAt d.cols r v))))⟩ := by
        unfold process at hout
        rw [h1] at hout
        dsimp only at hout
        rw [hIdx] at hout
        exact (Option.some.inj hout).symm
      have hoc : out.cols = d.cols := by rw [hE]
      have hc21 : col2 = v := by
        rw [hoc, h1] at h2
        exact (Option.some.inj h2).symm
      subst hc21
      by_cases hcE : col2 = "Emails"
      · subst hcE
        rw [process_emails_cell hal h1 hout hi]
        exact rescan_emails _
      · rw [hE, getCell_process_set hIdx hvm hcE]
    | none =>
      have hE : out = ⟨d.cols ++ ["Emails"], d.rows.map
          (fun r => r ++ [some (emailsCellValue (cellAt d.cols r v))])⟩ := by
        unfold process at hout
        rw [h1] at hout
        dsimp only at hout
        rw [hIdx] at hout
        exact (Option.some.inj hout).symm
      by_cases hreq : lowerStr req = "emails"
      · have hc2 : col2 = "Emails" := by
          rw [hE] at h2
          dsimp only at h2
          rw [resolve_emails_append d.cols req hreq] at h2
          exact (Option.some.inj h2).symm
        subst hc2
        rw [process_emails_cell hal h1 hout hi]
        exact rescan_emails _
      · have hc21 : col2 = v := by
          rw [hE] at h2
          dsimp only at h2
          rw [resolve_append_emails d.cols req hcols hreq, h1] at h2
          exact (Option.some.inj h2).symm
        subst hc21
        rw [hE, getCell_process_append hal hvm]
  · have hlen := process_rows_length hout
    rw [getCell_none_of_ge (d := out) (by omega), getCell_none_of_ge (by omega)]

/-- Witness for C9 on a one-row dataset. -/
theorem annotate_idempotent_match_sets_witness :
    dedup (find_emails (getCell (Dataset.mk ["Description", "Emails"]
        [[some "a@b.cc a@b.cc", some "a@b.cc"]]) "Description" 0)) =
      dedup (find_emails (getCell (Dataset.mk ["Description"]
        [[some "a@b.cc a@b.cc"]]) "Description" 0)) :=
  annotate_idempotent_match_sets ⟨["Description"], [[some "a@b.cc a@b.cc"]]⟩ "Description"
    ⟨["Description", "Emails"], [[some "a@b.cc a@b.cc", some "a@b.cc"]]⟩
    (by decide) (by rfl)
    "Description" "Description" (by rfl) (by rfl) 0

/-! ### The hint scan on arbitrary column lists

The `cols_lower` dictionary keeps one entry per distinct lowered column
name, in first-occurrence order, whose value is the last column with that
lowered name. The keys are exactly `dedup` of the lowered names, which
makes the guess loop precisely describable without assuming the lowered
names distinct. -/

theorem mem_foldl_dedup_of_mem_acc :
    ∀ (xs acc : List String) (y : String), y ∈ acc →
    y ∈ xs.foldl (fun seen e => if e ∈ seen then seen else seen ++ [e]) acc := by
  intro xs
  induction xs with
  | nil => intro acc y h; exact h
  | cons a as ih =>
    intro acc y h
    rw [List.foldl_cons]
    by_cases ha : a ∈ acc
    · rw [if_pos ha]; exact ih acc y h
    · rw [if_neg ha]; exact ih _ y (List.mem_append_left _ h)

theorem mem_dedup_complete :
    ∀ {xs : List String} {x : String}, x ∈ xs → x ∈ dedup xs := by
  have haux : ∀ (xs acc : List String) (x : String), x ∈ xs →
      x ∈ xs.foldl (fun seen e => if e ∈ seen then seen else seen ++ [e]) acc := by
    intro xs
    induction xs with
    | nil => intro acc x h; simp at h
    | cons a as ih =>
      intro acc x h
      rw [List.foldl_cons]
      rcases List.mem_cons.1 h with rfl | h'
      · by_cases ha : x ∈ acc
        · rw [if_pos ha]
          exact mem_foldl_dedup_of_mem_acc as acc x ha
        · rw [if_neg ha]
          exact mem_foldl_dedup_of_mem_acc as _ x (by simp)
      · by_cases ha : a ∈ acc
        · rw [if_pos ha]; exact ih acc x h'
        · rw [if_neg ha]; exact ih _ x h'
  exact fun {xs x} h => haux xs [] x h

theorem dedup_append_singleton (xs : List String) (x : String) :
    dedup (xs ++ [x]) = if x ∈ xs then dedup xs else dedup xs ++ [x] := by
  have h : dedup (xs ++ [x]) = if x ∈ dedup xs then dedup xs else dedup xs ++ [x] := by
    unfold dedup
    rw [List.foldl_append, List.foldl_cons, List.foldl_nil]
  rw [h]
  by_cases hx : x ∈ xs
  · rw [if_pos (mem_dedup_complete hx), if_pos hx]
  · rw [if_neg (fun hm => hx (mem_dedup hm)), if_neg hx]

theorem any_key_eq (m : List (String × String)) (k : String) :
    m.any (fun p => p.1 == k) = (m.map (fun p => p.1)).any (fun x => x == k) := by
  induction m with
  | nil => rfl
  | cons q qs ih => simp [List.any_cons, ih]

theorem colsLower_append_singleton (cols : List String) (a : String) :
    colsLower (cols ++ [a]) = dictInsert (colsLower cols) (lowerStr a) a := by
  unfold colsLower
  rw [List.foldl_append]
  rfl

theorem dictInsert_keys (m : List (String × String)) (k v : String) :
    (dictInsert m k v).map (fun p => p.1) =
      if m.any (fun p => p.1 == k) then m.map (fun p => p.1)
      else m.map (fun p => p.1) ++ [k] := by
  unfold dictInsert
  by_cases hk : m.any (fun p => p.1 == k)
  · rw [if_pos hk, if_pos hk, List.map_map]
    refine List.map_congr_left ?_
    intro p _
    by_cases hp : (p.1 == k) = true
    · simp only [Function.comp_apply, if_pos hp]
      exact (by simpa using hp : p.1 = k).symm
    · simp only [Function.comp_apply, if_neg hp]
  · rw [if_neg hk, if_neg hk, List.map_append]
    rfl

theorem colsLower_keys (cols : List String) :
    (colsLower cols).map (fun p => p.1) = dedup (cols.map lowerStr) := by
  induction cols using List.reverseRecOn with
  | nil => rfl
  | append_singleton l a ih =>
    have hany : ((colsLower l).any fun p => p.1 == lowerStr a) = true ↔
        lowerStr a ∈ l.map lowerStr := by
      rw [any_key_eq, ih, List.any_eq_true]
      constructor
      · rintro ⟨x, hx, hxe⟩
        have hxa : x = lowerStr a := by simpa using hxe
        exact hxa ▸ mem_dedup hx
      · intro hm
        exact ⟨lowerStr a, mem_dedup_complete hm, by simp⟩
    rw [colsLower_append_singleton, dictInsert_keys, List.map_append, List.map_cons,
      List.map_nil, dedup_append_singleton]
    by_cases hmem : lowerStr a ∈ l.map lowerStr
    · rw [if_pos (hany.2 hmem), if_pos hmem, ih]
    · rw [if_neg (fun h => hmem (hany.1 h)), if_neg hmem, ih]

theorem dictInsert_mem_key_eq {m : List (String × String)} {k v : String}
    {p : String × String} (hp : p ∈ dictInsert m k v) (hk : p.1 = k) : p = (k, v) := by
  unfold dictInsert at hp
  by_cases hany : m.any (fun q => q.1 == k)
  · rw [if_pos hany] at hp
    obtain ⟨q, hq, hqe⟩ := List.mem_map.1 hp
    by_cases hq1 : (q.1 == k) = true
    · rw [if_pos hq1] at hqe
      exact hqe.symm
    · rw [if_neg hq1] at hqe
      exfalso
      apply hq1
      rw [hqe]
      simp [hk]
  · rw [if_neg hany] at hp
    rcases List.mem_append.1 hp with hp' | hp'
    · exfalso
      apply hany
      rw [List.any_eq_true]
      exact ⟨p, hp', by simp [hk]⟩
    · simpa using hp'

theorem dictInsert_mem_key_ne {m : List (String × String)} {k v : String}
    {p : String × String} (hp : p ∈ dictInsert m k v) (hk : p.1 ≠ k) : p ∈ m := by
  rcases dictInsert_mem hp with h | h
  · exact h
  · exact absurd (by rw [h] : p.1 = k) hk

theorem colsLower_last_value (cols : List String) :
    ∀ p ∈ colsLower cols, cols.reverse.find? (fun c => lowerStr c == p.1) = some p.2 := by
  induction cols using List.reverseRecOn with
  | nil => intro p hp; simp [colsLower] at hp
  | append_singleton l a ih =>
    intro p hp
    rw [colsLower_append_singleton] at hp
    rw [List.reverse_append, List.reverse_singleton, List.singleton_append]
    by_cases hpk : p.1 = lowerStr a
    · have hpv : p = (lowerStr a, a) := dictInsert_mem_key_eq hp hpk
      rw [List.find?_cons_of_pos (p := fun c => lowerStr c == p.1) _ (by simp [hpk]), hpv]
    · rw [List.find?_cons_of_neg (p := fun c => lowerStr c == p.1) _
        (by simp; exact fun he => hpk he.symm)]
      exact ih p (dictInsert_mem_key_ne hp hpk)

/-- C3 amended: when no column case-insensitively matches the requested
name, the resolver performs one pass in column order over the distinct
lowered column names (in first-occurrence order, as the `cols_lower`
dictionary stores them), checking all three hint substrings per name
(column-then-category order, not category-then-column); it picks the first
lowered name containing any hint and returns the dictionary's value for it,
which is the last column whose lowered name equals it; when the lowered
column names are distinct this is exactly the first column whose name
contains any hint substring. With no hint hit it falls back to the first
column. -/
theorem resolve_hint_scan_column_order (cols : List String) (req : String)
    (hno : ∀ c ∈ cols, lowerStr c ≠ lowerStr req) :
    (resolveColumn cols req =
      match (dedup (cols.map lowerStr)).find? hintHit with
      | some k => cols.reverse.find? (fun c => lowerStr c == k)
      | none => cols.head?) ∧
    ((cols.map lowerStr).Nodup →
      resolveColumn cols req =
        match cols.find? (fun c => hintHit (lowerStr c)) with
        | some c => some c
        | none => cols.head?) := by
  refine ⟨?_, fun hnd => resolve_hint_scan_nodup cols req hnd hno⟩
  have hl : lookupD (colsLower cols) (lowerStr req) = none :=
    lookupD_foldl_none cols [] (lowerStr req) hno
  have hfind : (dedup (cols.map lowerStr)).find? hintHit =
      ((colsLower cols).find? (fun p => hintHit p.1)).map (fun p => p.1) := by
    rw [← colsLower_keys, List.find?_map]
    rfl
  unfold resolveColumn
  rw [hl, hfind]
  cases hf : (colsLower cols).find? (fun p => hintHit p.1) with
  | some p =>
    dsimp only [Option.map_some']
    exact (colsLower_last_value cols p (List.mem_of_find?_eq_some hf)).symm
  | none => rfl

/-- Witness for the amended C3: an earlier column with a later-category hint
wins over a later column with an earlier-category hint, and with two columns
sharing a lowered name the dictionary's last-value-wins entry is returned. -/
theorem resolve_hint_scan_column_order_witness :
    resolveColumn ["My Info", "The Organisation"] "Quota" = some "My Info" ∧
    resolveColumn ["Info", "INFO"] "Quota" = some "INFO" :=
  ⟨((resolve_hint_scan_column_order ["My Info", "The Organisation"] "Quota"
      (by decide)).2 (by decide)).trans (by rfl),
    ((resolve_hint_scan_column_order ["Info", "INFO"] "Quota"
      (by decide)).1).trans (by rfl)⟩

end Extractor
